import Mathlib

/-!
Verification of the incremental quote/ticker synchronization engine of the
niveshpy library, shallowly embedded from `src/niveshpy/main.py` (class
`Nivesh`), with the value types of `niveshpy/models` and the built-in AMFI
source of `niveshpy/plugins/amfi.py` as collaborators.

Modelling conventions:
* calendar dates and timestamps are natural day numbers (`Nat`);
* a quote price (`pl.Decimal(scale=4)`) is the scaled integer value, wrapped
  in `Option` because polars columns are nullable and the AMFI loader maps
  the source tokens `"N.A."` and `"-"` to nulls;
* tabular data is a `List` of row structures, in frame row order;
* polars joins, filters and `update` are translated to list operations on
  those rows;
* a source adapter is a function argument (its `get_quotes` capability),
  so theorems quantify over adapter behaviour.
-/

namespace NiveshPy

/-- Quote row with the schema of `Quote.get_polars_schema()`:
`symbol: String, date: Date, price: Decimal(scale=4)`.  The price is
`Option` because polars columns are nullable. -/
structure QuoteRow where
  symbol : String
  date : Nat
  price : Option Int
  deriving DecidableEq, Repr

/-- Days of `pl.date_range(start, end)` used in `Nivesh._get_quotes`:
all calendar days from `lo` to `hi` inclusive, ascending. -/
def dateRange (lo hi : Nat) : List Nat :=
  (List.range (hi + 1 - lo)).map (lo + ·)

/-- Membership test for the key `(symbol, date)` in a quote table (the
polars join keys `on=["symbol", "date"]`). -/
def hasQuote (t : List QuoteRow) (s : String) (d : Nat) : Bool :=
  t.any fun r => r.symbol == s && r.date == d

/-- Gap detection of the DEFAULT strategy branch of `Nivesh._get_quotes`
(`main.py` lines 350-365): the cross join of the requested date range with
the requested symbols, anti-joined on `(symbol, date)` against the cached
quotes restricted to the requested symbols (`df_available`), sorted by
date.  The cross join (dates as the left frame) already enumerates rows in
ascending date order, so the final `.sort("date")` is the identity here. -/
def missingPairs (cache : List QuoteRow) (symbols : List String) (lo hi : Nat) :
    List (Nat × String) :=
  (dateRange lo hi).flatMap fun d =>
    (symbols.filter fun s =>
      !hasQuote (cache.filter fun r => symbols.contains r.symbol) s d).map
      fun s => (d, s)

/-- Batch planning of the DEFAULT strategy with `data_group_period = None`:
the fetch loop of `Nivesh._get_quotes` (lines 413-459) runs once per row of
`df_missing`, and without grouping each row carries only a `date` column, so
`start = end = date`: every missing `(date, symbol)` row becomes one
single-day batch. -/
def defaultBatches (cache : List QuoteRow) (symbols : List String) (lo hi : Nat) :
    List (Nat × Nat) :=
  (missingPairs cache symbols lo hi).map fun p => (p.1, p.1)

/-- The set of `(symbol, date)` pairs requested from the adapter by a list
of batches: each DEFAULT batch calls
`source.get_quotes(*symbols, start_date=start, end_date=end)` (lines
450-459) with the *entire* requested symbol collection, so a batch
`(a, b)` asks for every requested symbol on every day of `[a, b]`. -/
def fetchedPairs (symbols : List String) (batches : List (Nat × Nat)) :
    List (String × Nat) :=
  batches.flatMap fun b =>
    (dateRange b.1 b.2).flatMap fun d => symbols.map fun s => (s, d)

/-- Characterization of `dateRange` membership. -/
theorem mem_dateRange {lo hi d : Nat} : d ∈ dateRange lo hi ↔ lo ≤ d ∧ d ≤ hi := by
  simp only [dateRange, List.mem_map, List.mem_range]
  constructor
  · rintro ⟨k, hk, rfl⟩
    omega
  · rintro ⟨h1, h2⟩
    exact ⟨d - lo, by omega, by omega⟩

/-- Membership form of `hasQuote`. -/
theorem hasQuote_iff {t : List QuoteRow} {s : String} {d : Nat} :
    hasQuote t s d = true ↔ ∃ r ∈ t, r.symbol = s ∧ r.date = d := by
  simp [hasQuote, List.any_eq_true]

/-- Restricting the cache to the requested symbols does not change key
membership for a requested symbol. -/
theorem hasQuote_filter_symbols {cache : List QuoteRow} {symbols : List String}
    {s : String} {d : Nat} (h : s ∈ symbols) :
    hasQuote (cache.filter fun r => symbols.contains r.symbol) s d
      = hasQuote cache s d := by
  rcases hq : hasQuote cache s d with _ | _
  · rcases hf : hasQuote (cache.filter fun r => symbols.contains r.symbol) s d with _ | _
    · rfl
    · exfalso
      rcases hasQuote_iff.mp hf with ⟨r, hr, hsym, hdt⟩
      have : hasQuote cache s d = true :=
        hasQuote_iff.mpr ⟨r, (List.mem_filter.mp hr).1, hsym, hdt⟩
      simp [this] at hq
  · rcases hasQuote_iff.mp hq with ⟨r, hr, hsym, hdt⟩
    refine hasQuote_iff.mpr ⟨r, List.mem_filter.mpr ⟨hr, ?_⟩, hsym, hdt⟩
    rw [hsym]
    simpa using h

/-- Membership characterization of the missing set: exactly the requested
cross product minus the cached keys. -/
theorem mem_missingPairs {cache : List QuoteRow} {symbols : List String}
    {lo hi d : Nat} {x : String} :
    (d, x) ∈ missingPairs cache symbols lo hi ↔
      lo ≤ d ∧ d ≤ hi ∧ x ∈ symbols ∧ hasQuote cache x d = false := by
  simp only [missingPairs, List.mem_flatMap, List.mem_map, List.mem_filter]
  constructor
  · rintro ⟨d0, hd0, s0, ⟨hs0, hmiss⟩, he⟩
    obtain ⟨rfl, rfl⟩ : d0 = d ∧ s0 = x := by
      constructor <;> [exact (Prod.mk.injEq _ _ _ _ ▸ he).1;
        exact (Prod.mk.injEq _ _ _ _ ▸ he).2]
    obtain ⟨h1, h2⟩ := mem_dateRange.mp hd0
    refine ⟨h1, h2, hs0, ?_⟩
    rw [← hasQuote_filter_symbols hs0]
    simpa using hmiss
  · rintro ⟨h1, h2, hx, hq⟩
    refine ⟨d, mem_dateRange.mpr ⟨h1, h2⟩, x, ⟨hx, ?_⟩, rfl⟩
    rw [Bool.not_eq_true', hasQuote_filter_symbols hx]
    exact hq

/-- Membership in the fetched pairs of a batch list when a single symbol is
requested. -/
theorem mem_fetchedPairs_single {s x : String} {d : Nat} {batches : List (Nat × Nat)} :
    (x, d) ∈ fetchedPairs [s] batches ↔
      x = s ∧ ∃ b ∈ batches, b.1 ≤ d ∧ d ≤ b.2 := by
  simp only [fetchedPairs, List.mem_flatMap, List.mem_map, List.mem_singleton]
  constructor
  · rintro ⟨b, hb, d0, hd0, s0, hs0, he⟩
    cases he
    obtain ⟨h1, h2⟩ := mem_dateRange.mp hd0
    exact ⟨hs0, b, hb, h1, h2⟩
  · rintro ⟨hxs, b, hb, h1, h2⟩
    exact ⟨b, hb, d, mem_dateRange.mpr ⟨h1, h2⟩, x, hxs, rfl⟩

/-- Cache used for the counterexample: symbol `A` cached on days 1 and 2,
symbol `B` cached on day 1 only. -/
def cexCache : List QuoteRow :=
  [⟨"A", 1, some 10000⟩, ⟨"A", 2, some 10000⟩, ⟨"B", 1, some 10000⟩]

/-- C1 counterexample.  For two requested symbols the fetched pairs are NOT
exactly the missing pairs: with symbol `A` cached on days 1-2 and `B`
cached only on day 1, requesting `[1, 2]` leaves only `(B, day 2)` missing,
yet the single resulting batch calls the adapter with the full symbol list,
so the already-cached pair `(A, day 2)` is requested again. -/
theorem c1_gap_overfetch_cex :
    missingPairs cexCache ["A", "B"] 1 2 = [(2, "B")] ∧
    ("A", 2) ∈ fetchedPairs ["A", "B"] (defaultBatches cexCache ["A", "B"] 1 2) ∧
    hasQuote cexCache "A" 2 = true := by
  decide

/-- Cache for the January scenario: symbol `S` cached on every day of
`[1, 31]` except day 15. -/
def janCache : List QuoteRow :=
  ((dateRange 1 31).filter fun d => d != 15).map fun d => ⟨"S", d, some 1000000⟩

/-- C1 (amended): the missing set is exactly the requested cross product
minus the cached pairs, and for a single requested symbol the pairs fetched
are exactly the missing pairs (one single-day batch per missing date); with
several requested symbols every batch still passes the whole requested
symbol list, so already-cached pairs can be re-requested (see the
counterexample).  In particular, with symbol `S` cached on all of January
except the 15th, requesting `[Jan 1, Jan 31]` produces exactly one batch
covering only January 15. -/
theorem c1_gap_detector_amended :
    (∀ (cache : List QuoteRow) (symbols : List String) (lo hi d : Nat) (x : String),
      (d, x) ∈ missingPairs cache symbols lo hi ↔
        lo ≤ d ∧ d ≤ hi ∧ x ∈ symbols ∧ hasQuote cache x d = false) ∧
    (∀ (s : String) (cache : List QuoteRow) (lo hi : Nat) (x : String) (d : Nat),
      (x, d) ∈ fetchedPairs [s] (defaultBatches cache [s] lo hi) ↔
        (d, x) ∈ missingPairs cache [s] lo hi) ∧
    defaultBatches janCache ["S"] 1 31 = [(15, 15)] := by
  refine ⟨fun cache symbols lo hi d x => mem_missingPairs, ?_, by decide⟩
  intro s cache lo hi x d
  rw [mem_fetchedPairs_single]
  constructor
  · rintro ⟨hxs, b, hb, h1, h2⟩
    simp only [defaultBatches, List.mem_map] at hb
    obtain ⟨p, hp, rfl⟩ := hb
    have hd : p.1 = d := le_antisymm h1 h2
    have hchar := mem_missingPairs.mp
      (show (p.1, p.2) ∈ missingPairs cache [s] lo hi from hp)
    have hps : p.2 = s := List.mem_singleton.mp hchar.2.2.1
    refine mem_missingPairs.mpr ⟨hd ▸ hchar.1, hd ▸ hchar.2.1,
      List.mem_singleton.mpr hxs, ?_⟩
    have hq := hchar.2.2.2
    rw [hxs, ← hps, ← hd]
    exact hq
  · intro hm
    have hchar := mem_missingPairs.mp hm
    have hxs : x = s := List.mem_singleton.mp hchar.2.2.1
    refine ⟨hxs, (d, d), ?_, le_refl d, le_refl d⟩
    simp only [defaultBatches, List.mem_map]
    exact ⟨(d, x), hm, rfl⟩

/-! Merge engine: `df_quotes.update(df_new, on=["symbol", "date"], how="full")`
(`main.py` line 469).  Polars `update` with the default `include_nulls=False`
coalesces non-key columns preferring the non-null values of the new frame. -/

/-- Coalesce used by polars `update` (default `include_nulls=False`): a null
cell in the new frame does not overwrite the old value. -/
def coalescePrice (newPrice oldPrice : Option Int) : Option Int :=
  match newPrice with
  | some p => some p
  | none => oldPrice

/-- Non-key-column update applied to one old row: if the new table holds a
row with the same `(symbol, date)` key, take its price where non-null. -/
def applyNew (new : List QuoteRow) (r : QuoteRow) : QuoteRow :=
  match new.find? (fun n => n.symbol == r.symbol && n.date == r.date) with
  | some n => { r with price := coalescePrice n.price r.price }
  | none => r

/-- The merge engine, `old.update(new, on=["symbol", "date"], how="full")`:
old rows with a key match are updated in place (non-null new values win),
old-only rows are retained unchanged, and new-only rows are appended. -/
def updateFull (old new : List QuoteRow) : List QuoteRow :=
  (old.map (applyNew new)) ++ new.filter fun n => !hasQuote old n.symbol n.date

/-- First row of a quote table carrying the key `(s, d)`. -/
def findKey (t : List QuoteRow) (s : String) (d : Nat) : Option QuoteRow :=
  t.find? fun r => r.symbol == s && r.date == d

theorem applyNew_symbol (new : List QuoteRow) (r : QuoteRow) :
    (applyNew new r).symbol = r.symbol := by
  unfold applyNew
  split <;> rfl

theorem applyNew_date (new : List QuoteRow) (r : QuoteRow) :
    (applyNew new r).date = r.date := by
  unfold applyNew
  split <;> rfl

/-- Searching the updated old rows for a key finds the update of the first
old row with the key. -/
theorem find?_map_applyNew (old new : List QuoteRow) (s : String) (d : Nat) :
    (old.map (applyNew new)).find? (fun r => r.symbol == s && r.date == d)
      = (old.find? fun r => r.symbol == s && r.date == d).map (applyNew new) := by
  rw [List.find?_map]
  have he : ((fun r : QuoteRow => r.symbol == s && r.date == d) ∘ applyNew new)
      = fun r : QuoteRow => r.symbol == s && r.date == d := by
    funext r
    simp only [Function.comp_apply, applyNew_symbol, applyNew_date]
  rw [he]

/-- Keys absent from a table are not found. -/
theorem findKey_eq_none_of_hasQuote_false {t : List QuoteRow} {s : String} {d : Nat}
    (h : hasQuote t s d = false) : findKey t s d = none := by
  unfold findKey
  rw [List.find?_eq_none]
  intro r hr hp
  simp only [Bool.and_eq_true, beq_iff_eq] at hp
  have ht : hasQuote t s d = true := hasQuote_iff.mpr ⟨r, hr, hp.1, hp.2⟩
  rw [ht] at h
  exact Bool.noConfusion h

/-- Filtering by a predicate implied by the searched-for predicate does not
change the result of the search. -/
theorem find?_filter_of_imp {α : Type} (l : List α) (p q : α → Bool)
    (h : ∀ a, p a = true → q a = true) :
    (l.filter q).find? p = l.find? p := by
  induction l with
  | nil => rfl
  | cons a l ih =>
    rcases hqa : q a with _ | _
    · have hpa : p a = false := by
        rcases hpa2 : p a with _ | _
        · rfl
        · rw [h a hpa2] at hqa
          exact Bool.noConfusion hqa
      simp [List.filter_cons, hqa, List.find?_cons, hpa, ih]
    · rcases hpa : p a with _ | _
      · simp [List.filter_cons, hqa, List.find?_cons, hpa, ih]
      · simp [List.filter_cons, hqa, List.find?_cons, hpa]

/-- C2 counterexample.  The claim says a key present in both tables takes the
new row *entirely*; but polars `update` keeps its default
`include_nulls=False`, so a null price in the new row does not overwrite:
merging a new row `(S, day 15, null)` over a cached `(S, day 15, 99.0000)`
keeps the old price instead of producing the new row. -/
theorem c2_merge_null_cex :
    updateFull [⟨"S", 15, some 990000⟩] [⟨"S", 15, none⟩]
        = [⟨"S", 15, some 990000⟩] ∧
    ¬ (⟨"S", 15, none⟩ : QuoteRow) ∈
        updateFull [⟨"S", 15, some 990000⟩] [⟨"S", 15, none⟩] := by
  decide

/-- C2 (amended): the merge is an upsert with coalesce-preferring-new on the
non-key column: for a key present in both tables the merged row keeps the
key and takes the new price when it is non-null (falling back to the old
price on a null); keys only in the old table are retained unchanged; keys
only in the new table are appended.  In particular, merging
`(S, day 15, 100.0000)` over a cached `(S, day 15, 99.0000)` yields
`100.0000` and leaves the unrelated row `(T, day 15, 50.0000)` unchanged. -/
theorem c2_merge_upsert_amended :
    (∀ (old new : List QuoteRow) (s : String) (d : Nat) (ro rn : QuoteRow),
      findKey old s d = some ro → findKey new s d = some rn →
        findKey (updateFull old new) s d
          = some ⟨ro.symbol, ro.date, coalescePrice rn.price ro.price⟩) ∧
    (∀ (old new : List QuoteRow) (s : String) (d : Nat) (ro : QuoteRow),
      findKey old s d = some ro → findKey new s d = none →
        findKey (updateFull old new) s d = some ro) ∧
    (∀ (old new : List QuoteRow) (s : String) (d : Nat) (rn : QuoteRow),
      hasQuote old s d = false → findKey new s d = some rn →
        findKey (updateFull old new) s d = some rn) ∧
    updateFull [⟨"S", 15, some 990000⟩, ⟨"T", 15, some 500000⟩]
        [⟨"S", 15, some 1000000⟩]
      = [⟨"S", 15, some 1000000⟩, ⟨"T", 15, some 500000⟩] := by
  have key_of_found : ∀ (t : List QuoteRow) (s : String) (d : Nat) (r : QuoteRow),
      findKey t s d = some r → r.symbol = s ∧ r.date = d := by
    intro t s d r h
    have h2 : t.find? (fun x => x.symbol == s && x.date == d) = some r := h
    have hp := List.find?_some h2
    simp only [Bool.and_eq_true, beq_iff_eq] at hp
    exact hp
  refine ⟨?_, ?_, ?_, by decide⟩
  · intro old new s d ro rn ho hn
    obtain ⟨hs, hd⟩ := key_of_found old s d ro ho
    subst hs
    subst hd
    unfold updateFull findKey
    rw [List.find?_append, find?_map_applyNew,
      show (old.find? fun r => r.symbol == ro.symbol && r.date == ro.date)
        = some ro from ho]
    show some (applyNew new ro) = _
    unfold applyNew
    rw [show (new.find? fun n => n.symbol == ro.symbol && n.date == ro.date)
      = some rn from hn]
  · intro old new s d ro ho hn
    obtain ⟨hs, hd⟩ := key_of_found old s d ro ho
    subst hs
    subst hd
    unfold updateFull findKey
    rw [List.find?_append, find?_map_applyNew,
      show (old.find? fun r => r.symbol == ro.symbol && r.date == ro.date)
        = some ro from ho]
    show some (applyNew new ro) = some ro
    unfold applyNew
    rw [show (new.find? fun n => n.symbol == ro.symbol && n.date == ro.date)
      = none from hn]
  · intro old new s d rn hq hn
    unfold updateFull findKey
    rw [List.find?_append, find?_map_applyNew,
      show (old.find? fun r => r.symbol == s && r.date == d) = none from
        findKey_eq_none_of_hasQuote_false hq]
    have himp : ∀ a : QuoteRow, (a.symbol == s && a.date == d) = true →
        (!hasQuote old a.symbol a.date) = true := by
      intro a ha
      simp only [Bool.and_eq_true, beq_iff_eq] at ha
      rw [ha.1, ha.2, hq]
      rfl
    rw [find?_filter_of_imp new _ _ himp,
      show (new.find? fun r => r.symbol == s && r.date == d) = some rn from hn]
    rfl

/-- C2 witness instances for the three upsert cases of the amended merge
theorem, at concrete tables. -/
theorem c2_merge_upsert_amended_witness :
    (findKey (updateFull [⟨"S", 15, some 990000⟩] [⟨"S", 15, some 1000000⟩]) "S" 15
      = some ⟨"S", 15, coalescePrice (some 1000000) (some 990000)⟩) ∧
    (findKey (updateFull [⟨"T", 3, some 70000⟩] []) "T" 3
      = some ⟨"T", 3, some 70000⟩) ∧
    (findKey (updateFull [] [⟨"U", 4, some 80000⟩]) "U" 4
      = some ⟨"U", 4, some 80000⟩) :=
  ⟨c2_merge_upsert_amended.1 [⟨"S", 15, some 990000⟩] [⟨"S", 15, some 1000000⟩]
      "S" 15 ⟨"S", 15, some 990000⟩ ⟨"S", 15, some 1000000⟩ (by decide) (by decide),
    c2_merge_upsert_amended.2.1 [⟨"T", 3, some 70000⟩] [] "T" 3
      ⟨"T", 3, some 70000⟩ (by decide) (by decide),
    c2_merge_upsert_amended.2.2.1 [] [⟨"U", 4, some 80000⟩] "U" 4
      ⟨"U", 4, some 80000⟩ (by decide) (by decide)⟩

/-! Ticker registry sync: `Nivesh.get_tickers` (`main.py` lines 160-258).
The catalog row schema is `symbol, name, isin, source_key, last_updated`.
`apply_filters` and `format_output` are translated from `utils.py`
(the revision kept under `mftools/utils.py`, which `main.py` calls via
`niveshpy.utils`); `format_output` only changes the representation of the
rows, so it is modelled as tagging the rows with the requested format. -/

/-- Catalog row with the persisted ticker schema (`main.py` lines 238-244):
`symbol, name, isin, source_key, last_updated`. -/
structure TickerRow where
  symbol : String
  name : String
  isin : Option String
  source_key : String
  last_updated : Nat
  deriving DecidableEq, Repr

/-- A source as `get_tickers` consumes it: its stable key, its
`SourceConfig.ticker_refresh_interval`, and the catalog rows
`(symbol, name, isin)` its `get_tickers()` adapter returns. -/
structure TickerSource where
  key : String
  ticker_refresh_interval : Option Nat
  rows : List (String × String × Option String)
  deriving DecidableEq, Repr

/-- Freshness lookup of `get_tickers` (lines 197-215): the cached catalog is
grouped by `source_key` with the minimum `last_updated`; a key is a member
of `pre_loaded_sources` exactly when the cached catalog has rows for it. -/
def preLoaded (pre : List TickerRow) (key : String) : Option Nat :=
  match (pre.filter fun r => r.source_key == key).map (fun r => r.last_updated) with
  | [] => none
  | t :: ts => some (ts.foldl Nat.min t)

/-- The refresh decision of `get_tickers` (lines 222-228): the source
adapter is NOT called (cached rows stand) iff the cached catalog has rows
for its key AND `ticker_refresh_interval` is not `None` AND the elapsed
time since the cached `last_updated` is below the interval; in every other
case — including `ticker_refresh_interval = None` — `source.get_tickers()`
is called. -/
def tickerFetchRequired (pre : List TickerRow) (src : TickerSource) (now : Nat) : Bool :=
  match preLoaded pre src.key, src.ticker_refresh_interval with
  | some lu, some iv => !decide (now - lu < iv)
  | _, _ => true

/-- Rows fetched from one source, stamped with its `source_key` and the
current timestamp (lines 231-244). -/
def stampRows (key : String) (now : Nat)
    (rows : List (String × String × Option String)) : List TickerRow :=
  rows.map fun r => ⟨r.1, r.2.1, r.2.2, key, now⟩

/-- The concatenated fresh rows of all selected sources that needed a
refresh (lines 217-244). -/
def newTickerRows (sources : List TickerSource) (pre : List TickerRow) (now : Nat) :
    List TickerRow :=
  sources.flatMap fun src =>
    if tickerFetchRequired pre src now then stampRows src.key now src.rows else []

/-- Key membership on `(source_key, symbol)` in a catalog. -/
def hasTicker (t : List TickerRow) (k s : String) : Bool :=
  t.any fun r => r.source_key == k && r.symbol == s

/-- Per-row effect of
`df_tickers_pre.update(df_tickers, on=["source_key", "symbol"], how="full")`
(lines 247-251): a key match takes the new row's non-key columns, the
nullable `isin` coalescing preferring non-null new values
(`include_nulls=False`). -/
def applyNewTicker (new : List TickerRow) (r : TickerRow) : TickerRow :=
  match new.find? (fun n => n.source_key == r.source_key && n.symbol == r.symbol) with
  | some n =>
    { r with
      name := n.name
      isin := (match n.isin with | some i => some i | none => r.isin)
      last_updated := n.last_updated }
  | none => r

/-- The catalog upsert on the `(source_key, symbol)` key. -/
def updateTickers (old new : List TickerRow) : List TickerRow :=
  (old.map (applyNewTicker new)) ++
    new.filter fun n => !hasTicker old n.source_key n.symbol

/-- Value of a catalog column on a row, as `apply_filters` reads it for its
`is_in` filter; a null `isin` matches no value set. -/
def colValue (r : TickerRow) (c : String) : Option String :=
  if c = "symbol" then some r.symbol
  else if c = "name" then some r.name
  else if c = "isin" then r.isin
  else if c = "source_key" then some r.source_key
  else none

/-- Catalog column names. -/
def tickerColumns : List String :=
  ["symbol", "name", "isin", "source_key", "last_updated"]

/-- Membership filter on `source_key` of `apply_filters`, skipped when the
list is empty or absent (matching Python truthiness `if source_keys:`). -/
def filterSourceKeys (rows : List TickerRow) (source_keys : Option (List String)) :
    List TickerRow :=
  match source_keys with
  | some ks =>
    if ks.isEmpty then rows else rows.filter fun r => ks.contains r.source_key
  | none => rows

/-- One filter entry matches a row when the row's value in that column is
among the entry's values (a null `isin` matches none). -/
def filterEntryMatches (r : TickerRow) (f : String × List String) : Bool :=
  match colValue r f.1 with
  | some v => f.2.contains v
  | none => false

/-- Embedding of `apply_filters(frame, source_keys, filters)`: the
source-key membership filter, then the OR-combination of per-column
value-set filters, ignoring filter keys that are not catalog columns
(skipped entirely when the dict is empty or absent). -/
def applyFilters (rows : List TickerRow) (source_keys : Option (List String))
    (filters : Option (List (String × List String))) : List TickerRow :=
  let rows1 := filterSourceKeys rows source_keys
  match filters with
  | none => rows1
  | some fs =>
    if fs.isEmpty then rows1
    else
      let valid := fs.filter fun f => tickerColumns.contains f.1
      if valid.isEmpty then rows1
      else rows1.filter fun r => valid.any (filterEntryMatches r)

/-- Return formats of `niveshpy.models.helpers.ReturnFormat`. -/
inductive ReturnFormat where
  | dict
  | pl_dataframe
  | pl_lazyframe
  | pd_dataframe
  | json
  | csv
  deriving DecidableEq, Repr

/-- Embedding of `format_output`: the format selects only the output
representation of the rows, modelled as tagging them. -/
def formatOutput (rows : List TickerRow) (format : ReturnFormat) :
    ReturnFormat × List TickerRow :=
  (format, rows)

/-- Result of `get_tickers`: the catalog persisted by `save_tickers` and
the returned (filtered, formatted) view. -/
structure GetTickersResult where
  persisted : List TickerRow
  view : ReturnFormat × List TickerRow
  deriving Repr

/-- Embedding of `Nivesh.get_tickers` (lines 190-258): load the cached
catalog, refresh the selected sources that need it, upsert into the cached
catalog, persist the merged catalog (`save_tickers`, line 254), and only
then apply `apply_filters` and `format_output` to build the returned
view. -/
def get_tickers (sources : List TickerSource) (pre : List TickerRow) (now : Nat)
    (source_keys : Option (List String))
    (filters : Option (List (String × List String)))
    (format : ReturnFormat) : GetTickersResult :=
  let selected := match source_keys with
    | some ks => sources.filter fun s => ks.contains s.key
    | none => sources
  let persisted := updateTickers pre (newTickerRows selected pre now)
  { persisted := persisted
    view := formatOutput (applyFilters persisted source_keys filters) format }

/-- Rows surviving the source-key filter come from the input rows. -/
theorem mem_filterSourceKeys {rows : List TickerRow} {sk : Option (List String)}
    {r : TickerRow} (h : r ∈ filterSourceKeys rows sk) : r ∈ rows := by
  cases sk with
  | none => exact h
  | some ks =>
    simp only [filterSourceKeys] at h
    by_cases hks : ks.isEmpty
    · rw [if_pos hks] at h
      exact h
    · rw [if_neg hks] at h
      exact (List.mem_filter.mp h).1

/-- Rows surviving `apply_filters` come from the input rows. -/
theorem mem_applyFilters {rows : List TickerRow} {sk : Option (List String)}
    {fs : Option (List (String × List String))} {r : TickerRow}
    (h : r ∈ applyFilters rows sk fs) : r ∈ rows := by
  cases fs with
  | none => exact mem_filterSourceKeys h
  | some l =>
    simp only [applyFilters] at h
    by_cases hl : l.isEmpty
    · rw [if_pos hl] at h
      exact mem_filterSourceKeys h
    · rw [if_neg hl] at h
      by_cases hv : (l.filter fun f => tickerColumns.contains f.1).isEmpty
      · rw [if_pos hv] at h
        exact mem_filterSourceKeys h
      · rw [if_neg hv] at h
        exact mem_filterSourceKeys (List.mem_filter.mp h).1

/-- C10: the merged catalog is persisted before filters, source-key
selection and output format are applied: with the source selection fixed,
varying `filters` and `format` leaves the persisted catalog unchanged, the
returned view is computed from the persisted catalog by `apply_filters`
and `format_output` alone, and every row of the view is a row of the
persisted catalog. -/
theorem c10_persist_before_view (sources : List TickerSource)
    (pre : List TickerRow) (now : Nat) (sk : Option (List String))
    (f1 f2 : Option (List (String × List String))) (fmt1 fmt2 : ReturnFormat) :
    (get_tickers sources pre now sk f1 fmt1).persisted
        = (get_tickers sources pre now sk f2 fmt2).persisted ∧
    (get_tickers sources pre now sk f1 fmt1).view
        = formatOutput
            (applyFilters (get_tickers sources pre now sk f1 fmt1).persisted sk f1)
            fmt1 ∧
    ∀ r ∈ ((get_tickers sources pre now sk f1 fmt1).view).2,
      r ∈ (get_tickers sources pre now sk f1 fmt1).persisted := by
  refine ⟨rfl, rfl, fun r hr => mem_applyFilters hr⟩

/-- Cached catalog of `tests/test_source.py::test_get_tickers_local`: one
row for source `dummy_source` saved at an earlier time (100 < now). -/
def dummyPre : List TickerRow :=
  [⟨"dummy_ticker_2", "Dummy Ticker 2", some "ISIN0001", "dummy_source", 100⟩]

/-- The DummySource of the tests: `ticker_refresh_interval = None`, and a
`get_tickers()` adapter returning one fresh row. -/
def dummySource : TickerSource :=
  ⟨"dummy_source", none, [("dummy_ticker_1", "Dummy Ticker 1", some "ISIN0000")]⟩

/-- C4: the code contradicts the claim (and its own test
`test_get_tickers_local` and the `SourceConfig` doc) for
`ticker_refresh_interval = None`: the refresh condition
(lines 222-227) requires `ticker_refresh_interval is not None` to SKIP, so
a `None`-interval source with cached rows is re-fetched on every call —
`get_tickers()` IS called and the fresh row joins the cached one, where the
test expects the cached row alone. -/
theorem c4_none_interval_refetch_bug :
    tickerFetchRequired dummyPre dummySource 200 = true ∧
    ((get_tickers [dummySource] dummyPre 200 none none ReturnFormat.dict).view).2.map
        (fun r => r.symbol)
      = ["dummy_ticker_2", "dummy_ticker_1"] := by
  decide

/-! ALL_TICKERS strategy: availability ledger and the settlement-window
fetch loop of `Nivesh._get_quotes` (lines 377-447).  The ledger helpers
live in `niveshpy/utils.py`, which is not among the given sources, so they
are modelled from the spec; the skip condition, the clipping and the loop
itself are translated from `main.py`. -/

/-- Modelled from the spec: the Availability Ledger of an ALL_TICKERS
source records already-fetched date spans, one `(start, end)` entry per
`mark_quotes_as_available` call; a day is available when some recorded
span contains it. -/
def coveredBy (ledger : List (Nat × Nat)) (d : Nat) : Bool :=
  ledger.any fun sp => sp.1 ≤ d && d ≤ sp.2

/-- Modelled from the spec: `check_quotes_availability(key, start, end)`
(`niveshpy/utils.py`, absent from the sources) returns the dates of the
window already covered by the ledger. -/
def check_quotes_availability (ledger : List (Nat × Nat)) (lo hi : Nat) :
    List Nat :=
  (dateRange lo hi).filter (coveredBy ledger)

/-- Modelled from the spec: `mark_quotes_as_available(key, start, end)`
(`niveshpy/utils.py`, absent from the sources) records the span as newly
available in the ledger. -/
def mark_quotes_as_available (ledger : List (Nat × Nat)) (lo hi : Nat) :
    List (Nat × Nat) :=
  ledger ++ [(lo, hi)]

/-- Missing dates of the ALL_TICKERS branch (lines 378-394): the requested
date range anti-joined on `date` against `check_quotes_availability`. -/
def missingDatesAT (ledger : List (Nat × Nat)) (lo hi : Nat) : List Nat :=
  (dateRange lo hi).filter fun d =>
    !(check_quotes_availability ledger lo hi).contains d

/-- Without `data_group_period` each missing date row is its own span
(`start = end = date`, lines 413-415). -/
def atSpans (ledger : List (Nat × Nat)) (lo hi : Nat) : List (Nat × Nat) :=
  (missingDatesAT ledger lo hi).map fun d => (d, d)

/-- State produced by the ALL_TICKERS fetch loop: the final ledger, the
spans dispatched to the adapter, and the quote rows obtained. -/
structure ATLoopResult where
  ledger : List (Nat × Nat)
  fetchedSpans : List (Nat × Nat)
  newQuotes : List QuoteRow
  deriving DecidableEq, Repr

/-- The ALL_TICKERS fetch loop (lines 420-447): for each missing span, if
`start > today - data_refresh_interval` the span is skipped this cycle
(`continue`); otherwise `source.get_quotes(start_date=start, end_date=end)`
is called (the requested symbols ignored) and the span — both ends clipped
by `min` with the cutoff — is recorded by `mark_quotes_as_available`,
unconditionally, whatever rows the adapter returned. -/
def atLoop (adapter : Nat → Nat → List QuoteRow) (today dri : Nat)
    (ledger : List (Nat × Nat)) : List (Nat × Nat) → ATLoopResult
  | [] => ⟨ledger, [], []⟩
  | (s, e) :: rest =>
    if today - dri < s then
      atLoop adapter today dri ledger rest
    else
      let r := atLoop adapter today dri
        (mark_quotes_as_available ledger (min s (today - dri)) (min e (today - dri)))
        rest
      ⟨r.ledger, (s, e) :: r.fetchedSpans, adapter s e ++ r.newQuotes⟩

/-- Days covered by a ledger stay covered when more spans are recorded. -/
theorem coveredBy_append_left {ledger extra : List (Nat × Nat)} {d : Nat}
    (h : coveredBy ledger d = true) : coveredBy (ledger ++ extra) d = true := by
  rcases List.any_eq_true.mp h with ⟨sp, hsp, hle⟩
  exact List.any_eq_true.mpr ⟨sp, List.mem_append_left _ hsp, hle⟩

/-- Membership characterization of the ALL_TICKERS missing dates. -/
theorem mem_missingDatesAT {ledger : List (Nat × Nat)} {lo hi d : Nat} :
    d ∈ missingDatesAT ledger lo hi ↔
      d ∈ dateRange lo hi ∧ coveredBy ledger d = false := by
  unfold missingDatesAT check_quotes_availability
  rw [List.mem_filter]
  constructor
  · rintro ⟨hd, hc⟩
    refine ⟨hd, ?_⟩
    rcases hcov : coveredBy ledger d with _ | _
    · rfl
    · exfalso
      have : (List.filter (coveredBy ledger) (dateRange lo hi)).contains d = true := by
        simp only [List.contains_iff_exists_mem_beq]
        exact ⟨d, List.mem_filter.mpr ⟨hd, hcov⟩, by simp⟩
      rw [this] at hc
      exact Bool.noConfusion hc
  · rintro ⟨hd, hcov⟩
    refine ⟨hd, ?_⟩
    rcases hc : (List.filter (coveredBy ledger) (dateRange lo hi)).contains d with _ | _
    · rfl
    · exfalso
      simp only [List.contains_iff_exists_mem_beq] at hc
      rcases hc with ⟨d0, hd0, hbeq⟩
      have hdd : d = d0 := by simpa using hbeq
      subst hdd
      rw [(List.mem_filter.mp hd0).2] at hcov
      exact Bool.noConfusion hcov

/-- The spans dispatched by the loop are exactly the spans whose start is
not newer than the cutoff `today - data_refresh_interval`. -/
theorem atLoop_fetchedSpans (adapter : Nat → Nat → List QuoteRow)
    (today dri : Nat) (ledger spans : List (Nat × Nat)) :
    (atLoop adapter today dri ledger spans).fetchedSpans
      = spans.filter fun sp => decide (sp.1 ≤ today - dri) := by
  induction spans generalizing ledger with
  | nil => rfl
  | cons sp rest ih =>
    rcases sp with ⟨s, e⟩
    rw [atLoop]
    by_cases hc : today - dri < s
    · rw [if_pos hc]
      have hdec : decide (s ≤ today - dri) = false := by
        simp only [decide_eq_false_iff_not]
        omega
      simp [List.filter_cons, hdec, ih]
    · rw [if_neg hc]
      have hdec : decide (s ≤ today - dri) = true := by
        simp only [decide_eq_true_eq]
        omega
      simp [List.filter_cons, hdec, ih]

/-- The loop only ever appends to the ledger. -/
theorem atLoop_ledger_mono (adapter : Nat → Nat → List QuoteRow)
    (today dri : Nat) (ledger spans : List (Nat × Nat)) (x : Nat × Nat)
    (h : x ∈ ledger) : x ∈ (atLoop adapter today dri ledger spans).ledger := by
  induction spans generalizing ledger with
  | nil => exact h
  | cons sp rest ih =>
    rcases sp with ⟨s, e⟩
    rw [atLoop]
    by_cases hc : today - dri < s
    · rw [if_pos hc]
      exact ih ledger h
    · rw [if_neg hc]
      exact ih _ (List.mem_append_left _ h)

/-- Every dispatched span is recorded in the final ledger, clipped by `min`
with the cutoff on both ends — regardless of the adapter's result. -/
theorem atLoop_ledger_records (adapter : Nat → Nat → List QuoteRow)
    (today dri : Nat) (ledger spans : List (Nat × Nat)) (sp : Nat × Nat)
    (hsp : sp ∈ spans) (hc : sp.1 ≤ today - dri) :
    (min sp.1 (today - dri), min sp.2 (today - dri))
      ∈ (atLoop adapter today dri ledger spans).ledger := by
  induction spans generalizing ledger with
  | nil => cases hsp
  | cons hd rest ih =>
    rcases hd with ⟨s, e⟩
    rw [atLoop]
    rcases List.mem_cons.mp hsp with heq | hmem
    · have hs : sp.1 = s := by rw [heq]
      have he : sp.2 = e := by rw [heq]
      have hnot : ¬ today - dri < s := by omega
      rw [if_neg hnot]
      have hx : (min sp.1 (today - dri), min sp.2 (today - dri))
          ∈ mark_quotes_as_available ledger (min s (today - dri))
              (min e (today - dri)) := by
        rw [hs, he]
        exact List.mem_append_right _ (List.mem_singleton.mpr rfl)
      exact atLoop_ledger_mono adapter today dri _ rest _ hx
    · by_cases hlt : today - dri < s
      · rw [if_pos hlt]
        exact ih ledger hmem
      · rw [if_neg hlt]
        exact ih _ hmem

/-- Every ledger entry after the loop is either an old entry or a newly
recorded span whose end does not exceed the cutoff. -/
theorem atLoop_ledger_clipped (adapter : Nat → Nat → List QuoteRow)
    (today dri : Nat) (ledger spans : List (Nat × Nat)) (x : Nat × Nat)
    (h : x ∈ (atLoop adapter today dri ledger spans).ledger) :
    x ∈ ledger ∨ x.2 ≤ today - dri := by
  induction spans generalizing ledger with
  | nil => exact Or.inl h
  | cons hd rest ih =>
    rcases hd with ⟨s, e⟩
    rw [atLoop] at h
    by_cases hlt : today - dri < s
    · rw [if_pos hlt] at h
      exact ih ledger h
    · rw [if_neg hlt] at h
      have h2 : x ∈ (atLoop adapter today dri
          (mark_quotes_as_available ledger (min s (today - dri))
            (min e (today - dri))) rest).ledger := h
      rcases ih _ h2 with hin | hle
      · rcases List.mem_append.mp hin with hold | hnew
        · exact Or.inl hold
        · rcases List.mem_singleton.mp hnew with rfl
          right
          simp only
          omega
      · exact Or.inr hle

/-- The ledger produced by the loop does not depend on the adapter's
results at all. -/
theorem atLoop_ledger_adapter_free (a1 a2 : Nat → Nat → List QuoteRow)
    (today dri : Nat) (ledger spans : List (Nat × Nat)) :
    (atLoop a1 today dri ledger spans).ledger
      = (atLoop a2 today dri ledger spans).ledger := by
  induction spans generalizing ledger with
  | nil => rfl
  | cons hd rest ih =>
    rcases hd with ⟨s, e⟩
    rw [atLoop, atLoop]
    by_cases hlt : today - dri < s
    · rw [if_pos hlt, if_pos hlt]
      exact ih ledger
    · rw [if_neg hlt, if_neg hlt]
      exact ih _


/-- C3 counterexample.  With `data_refresh_interval = 1` and today = day 10
(cutoff = day 9), an empty ledger and the request `[8, 10]`, the loop
dispatches the span `(9, 9)` — whose start is today − 1, NOT older than the
cutoff — so the day `today − 1` IS fetched in this very call; only the span
starting at day 10 is skipped. -/
theorem c3_settlement_cex :
    (atLoop (fun _ _ => []) 10 1 [] (atSpans [] 8 10)).fetchedSpans
        = [(8, 8), (9, 9)] ∧
    ¬ (9 : Nat) < 10 - 1 := by
  constructor
  · decide
  · omega

/-- C3 (amended): a missing span is dispatched iff its start is at most
`today − data_refresh_interval` (spans starting strictly inside the
trailing window are skipped this cycle and left unrecorded, hence retried
later); every dispatched span is recorded in the ledger clipped by `min`
with the cutoff on both ends, so its recorded end never exceeds
`today − data_refresh_interval`; and with `data_refresh_interval = 1` a
request for `[today − 2, today]` dispatches the days `today − 2` AND
`today − 1`, skipping only the span starting at `today`. -/
theorem c3_settlement_window_amended :
    (∀ (adapter : Nat → Nat → List QuoteRow) (today dri : Nat)
        (ledger spans : List (Nat × Nat)),
      (atLoop adapter today dri ledger spans).fetchedSpans
        = spans.filter fun sp => decide (sp.1 ≤ today - dri)) ∧
    (∀ (adapter : Nat → Nat → List QuoteRow) (today dri : Nat)
        (ledger spans : List (Nat × Nat)) (sp : Nat × Nat),
      sp ∈ spans → sp.1 ≤ today - dri →
        (min sp.1 (today - dri), min sp.2 (today - dri))
          ∈ (atLoop adapter today dri ledger spans).ledger) ∧
    (∀ (adapter : Nat → Nat → List QuoteRow) (today dri : Nat)
        (ledger spans : List (Nat × Nat)) (x : Nat × Nat),
      x ∈ (atLoop adapter today dri ledger spans).ledger →
        x ∈ ledger ∨ x.2 ≤ today - dri) ∧
    (∀ adapter : Nat → Nat → List QuoteRow,
      (atLoop adapter 10 1 [] (atSpans [] 8 10)).fetchedSpans
        = [(8, 8), (9, 9)]) := by
  refine ⟨atLoop_fetchedSpans, ?_, ?_, ?_⟩
  · intro adapter today dri ledger spans sp h1 h2
    exact atLoop_ledger_records adapter today dri ledger spans sp h1 h2
  · intro adapter today dri ledger spans x h
    exact atLoop_ledger_clipped adapter today dri ledger spans x h
  · intro adapter
    rw [atLoop_fetchedSpans]
    decide

/-- C3 witness: the record-and-clip part of the amended theorem at the
concrete loop of the counterexample scenario. -/
theorem c3_settlement_window_amended_witness :
    ((9, 9) ∈ atSpans [] 8 10 ∧ (9 : Nat) ≤ 10 - 1) ∧
    (min 9 (10 - 1), min 9 (10 - 1))
      ∈ (atLoop (fun _ _ => []) 10 1 [] (atSpans [] 8 10)).ledger :=
  ⟨⟨by decide, by decide⟩,
    c3_settlement_window_amended.2.1 (fun _ _ => []) 10 1 [] (atSpans [] 8 10)
      (9, 9) (by decide) (by decide)⟩

/-- C9: the ledger update is unconditional — it does not depend on the
adapter's result at all (in particular an AMFI-style empty result on a
failed download still records the span), and a day once dispatched is
covered by the resulting ledger, so it is absent from the missing set of
every later call (any later window, any further ledger entries appended by
later calls): it is never fetched again. -/
theorem c9_ledger_marks_unconditionally :
    (∀ (a1 a2 : Nat → Nat → List QuoteRow) (today dri : Nat)
        (ledger spans : List (Nat × Nat)),
      (atLoop a1 today dri ledger spans).ledger
        = (atLoop a2 today dri ledger spans).ledger) ∧
    (∀ (adapter : Nat → Nat → List QuoteRow) (today dri : Nat)
        (ledger : List (Nat × Nat)) (lo hi d : Nat),
      d ∈ missingDatesAT ledger lo hi → d ≤ today - dri →
        ∀ (extra : List (Nat × Nat)) (lo2 hi2 : Nat),
          ¬ d ∈ missingDatesAT
              ((atLoop adapter today dri ledger (atSpans ledger lo hi)).ledger
                ++ extra) lo2 hi2) := by
  refine ⟨atLoop_ledger_adapter_free, ?_⟩
  intro adapter today dri ledger lo hi d hmiss hcut extra lo2 hi2 hlater
  have hspan : (d, d) ∈ atSpans ledger lo hi := by
    simp only [atSpans, List.mem_map]
    exact ⟨d, hmiss, rfl⟩
  have hrec := atLoop_ledger_records adapter today dri ledger
    (atSpans ledger lo hi) (d, d) hspan hcut
  have hmin : min d (today - dri) = d := by omega
  rw [hmin] at hrec
  have hcov : coveredBy
      ((atLoop adapter today dri ledger (atSpans ledger lo hi)).ledger ++ extra)
      d = true := by
    apply coveredBy_append_left
    exact List.any_eq_true.mpr ⟨(d, d), hrec, by simp⟩
  have := (mem_missingDatesAT.mp hlater).2
  rw [hcov] at this
  exact Bool.noConfusion this

/-- C9 witness: with the failing-download AMFI adapter (empty result),
day 8 of the window `[8, 10]` (today = 10, refresh interval 1) is
dispatched, recorded, and absent from the missing set of a later call over
`[1, 20]`. -/
theorem c9_ledger_marks_unconditionally_witness :
    (8 : Nat) ∈ missingDatesAT [] 8 10 ∧ (8 : Nat) ≤ 10 - 1 ∧
    ¬ (8 : Nat) ∈ missingDatesAT
        ((atLoop (fun _ _ => []) 10 1 [] (atSpans [] 8 10)).ledger ++ []) 1 20 :=
  ⟨by decide, by decide,
    c9_ledger_marks_unconditionally.2 (fun _ _ => []) 10 1 [] 8 10 8
      (by decide) (by decide) [] 1 20⟩

/-! Error handling in the fetch loop (C6).  `Nivesh._get_quotes`
(lines 410-459) has no try/except around `source.get_quotes(...)`: an
adapter that raises propagates out of the whole `get_quotes` call (the
per-source results are built eagerly in a list comprehension at lines
590-608), while an adapter signalling failure by an empty sequence — as
the built-in AMFI source does after a failed download
(`plugins/amfi.py` lines 93-98) — contributes an empty frame and the loop
continues.  A raised exception is modelled as `Except.error`. -/

/-- The fetch loop over its batches with a fallible adapter: `.error`
models a raised exception (not caught by `main.py`, hence aborting the
loop and the surrounding call), `.ok rows` a normal return, `.ok []` a
failure signalled as an empty sequence. -/
def fetchBatchesE (adapter : Nat → Nat → Except String (List QuoteRow)) :
    List (Nat × Nat) → Except String (List QuoteRow)
  | [] => .ok []
  | b :: rest =>
    match adapter b.1 b.2 with
    | .error e => .error e
    | .ok q =>
      match fetchBatchesE adapter rest with
      | .error e => .error e
      | .ok qs => .ok (q ++ qs)

/-- A never-raising adapter gives exactly the concatenation of the batch
results: the `Except` view refines the plain loop. -/
theorem fetchBatchesE_of_total (adapter : Nat → Nat → List QuoteRow)
    (batches : List (Nat × Nat)) :
    fetchBatchesE (fun a b => .ok (adapter a b)) batches
      = .ok (batches.flatMap fun b => adapter b.1 b.2) := by
  induction batches with
  | nil => rfl
  | cons b rest ih =>
    rw [fetchBatchesE]
    simp only [ih, List.flatMap_cons]

/-- Adapter raising a transport error on the first batch while the second
batch would succeed. -/
def raisingAdapter : Nat → Nat → Except String (List QuoteRow) :=
  fun a _ => if a = 1 then .error "ConnectionError" else .ok [⟨"S", 2, some 10000⟩]

/-- C6 counterexample.  An adapter that raises during the first batch
aborts the whole loop — the second batch (whose fetch would succeed with
data) is never processed and the call errors instead of continuing. -/
theorem c6_raise_aborts_cex :
    fetchBatchesE raisingAdapter [(1, 1), (2, 2)] = .error "ConnectionError" ∧
    raisingAdapter 2 2 = .ok [⟨"S", 2, some 10000⟩] := by
  constructor
  · rfl
  · rfl

/-- C6 (amended): a failure signalled by returning an empty sequence
contributes zero rows and the loop continues exactly as if the batch were
absent (so remaining batches and sources are still processed); an adapter
that never raises never aborts the loop; but an adapter that raises on
some batch aborts the loop with that error even when every earlier batch
succeeded — the core has no try/except, the built-in AMFI source instead
converts transport failures into empty sequences itself. -/
theorem c6_failure_isolation_amended :
    (∀ (adapter : Nat → Nat → Except String (List QuoteRow))
        (b : Nat × Nat) (rest : List (Nat × Nat)),
      adapter b.1 b.2 = .ok [] →
        fetchBatchesE adapter (b :: rest) = fetchBatchesE adapter rest) ∧
    (∀ (adapter : Nat → Nat → List QuoteRow) (batches : List (Nat × Nat)),
      fetchBatchesE (fun a b => .ok (adapter a b)) batches
        = .ok (batches.flatMap fun b => adapter b.1 b.2)) ∧
    (∀ (adapter : Nat → Nat → Except String (List QuoteRow))
        (pre : List (Nat × Nat)) (b : Nat × Nat) (post : List (Nat × Nat))
        (msg : String),
      (∀ x ∈ pre, ∃ q, adapter x.1 x.2 = .ok q) →
      adapter b.1 b.2 = .error msg →
        fetchBatchesE adapter (pre ++ b :: post) = .error msg) := by
  refine ⟨?_, fetchBatchesE_of_total, ?_⟩
  · intro adapter b rest h
    rw [fetchBatchesE, h]
    rcases hr : fetchBatchesE adapter rest with e | qs
    · rfl
    · simp only [List.nil_append]
  · intro adapter pre b post msg hpre hb
    induction pre with
    | nil =>
      rw [List.nil_append, fetchBatchesE, hb]
    | cons x pre ih =>
      rcases hpre x (List.mem_cons_self x pre) with ⟨q, hq⟩
      rw [List.cons_append, fetchBatchesE, hq,
        ih fun y hy => hpre y (List.mem_cons_of_mem x hy)]

/-- C6 witness: the empty-sequence case at a concrete batch list (an AMFI
failed download on the first batch, data on the second), and the
error-propagation case at the counterexample adapter. -/
theorem c6_failure_isolation_amended_witness :
    (fetchBatchesE (fun a b => if a = 1 then .ok [] else .ok [⟨"S", 2, some 10000⟩])
        [(1, 1), (2, 2)]
      = fetchBatchesE
          (fun a b => if a = 1 then .ok [] else .ok [⟨"S", 2, some 10000⟩])
          [(2, 2)]) ∧
    fetchBatchesE raisingAdapter ([] ++ (1, 1) :: [(2, 2)]) = .error "ConnectionError" :=
  ⟨c6_failure_isolation_amended.1
      (fun a b => if a = 1 then .ok [] else .ok [⟨"S", 2, some 10000⟩])
      (1, 1) [(2, 2)] rfl,
    c6_failure_isolation_amended.2.2 raisingAdapter [] (1, 1) [(2, 2)]
      "ConnectionError" (fun x hx => absurd hx (List.not_mem_nil x)) rfl⟩

/-! One full DEFAULT-strategy sync (`Nivesh._get_quotes`, lines 322-483)
and the idempotence property (C5). -/

/-- Date order on quote rows, the key of `.sort("date")`. -/
def dateLe (a b : QuoteRow) : Prop := a.date ≤ b.date

instance : DecidableRel dateLe := fun a b => Nat.decLe a.date b.date

instance : IsTotal QuoteRow dateLe := ⟨fun a b => Nat.le_total a.date b.date⟩

instance : IsTrans QuoteRow dateLe := ⟨fun _ _ _ => Nat.le_trans⟩

/-- The `.sort("date")` of `_get_quotes` (line 470), modelled as a stable
sort on the date column. -/
def sortByDate (l : List QuoteRow) : List QuoteRow := l.insertionSort dateLe

/-- Sorting preserves the rows. -/
theorem mem_sortByDate {l : List QuoteRow} {a : QuoteRow} :
    a ∈ sortByDate l ↔ a ∈ l :=
  (List.perm_insertionSort dateLe l).mem_iff

/-- Sorting an already produced sort output again changes nothing. -/
theorem sortByDate_idem (l : List QuoteRow) :
    sortByDate (sortByDate l) = sortByDate l :=
  List.Sorted.insertionSort_eq (List.sorted_insertionSort dateLe l)

/-- Sorting preserves key membership. -/
theorem hasQuote_sortByDate (l : List QuoteRow) (s : String) (d : Nat) :
    hasQuote (sortByDate l) s d = hasQuote l s d := by
  rcases h : hasQuote l s d with _ | _
  · rcases h2 : hasQuote (sortByDate l) s d with _ | _
    · rfl
    · exfalso
      rcases hasQuote_iff.mp h2 with ⟨r, hr, e1, e2⟩
      have ht := hasQuote_iff.mpr ⟨r, mem_sortByDate.mp hr, e1, e2⟩
      rw [ht] at h
      exact Bool.noConfusion h
  · rcases hasQuote_iff.mp h with ⟨r, hr, e1, e2⟩
    exact hasQuote_iff.mpr ⟨r, mem_sortByDate.mpr hr, e1, e2⟩

/-- The keys of the merged table are the union of the old and new keys. -/
theorem hasQuote_updateFull (old new : List QuoteRow) (s : String) (d : Nat) :
    hasQuote (updateFull old new) s d = (hasQuote old s d || hasQuote new s d) := by
  rcases ho : hasQuote old s d with _ | _
  · rw [Bool.false_or]
    rcases hn : hasQuote new s d with _ | _
    · rcases hu : hasQuote (updateFull old new) s d with _ | _
      · rfl
      · exfalso
        rcases hasQuote_iff.mp hu with ⟨r, hr, e1, e2⟩
        rcases List.mem_append.mp hr with hm | hf
        · rcases List.mem_map.mp hm with ⟨r0, hr0, rfl⟩
          have e1a : r0.symbol = s := by
            rw [← applyNew_symbol new r0]
            exact e1
          have e2a : r0.date = d := by
            rw [← applyNew_date new r0]
            exact e2
          have ht := hasQuote_iff.mpr ⟨r0, hr0, e1a, e2a⟩
          rw [ht] at ho
          exact Bool.noConfusion ho
        · have hrn : r ∈ new := (List.mem_filter.mp hf).1
          have ht := hasQuote_iff.mpr ⟨r, hrn, e1, e2⟩
          rw [ht] at hn
          exact Bool.noConfusion hn
    · rcases hasQuote_iff.mp hn with ⟨r, hr, e1, e2⟩
      refine hasQuote_iff.mpr ⟨r, ?_, e1, e2⟩
      refine List.mem_append_right _ (List.mem_filter.mpr ⟨hr, ?_⟩)
      rw [e1, e2, ho]
      rfl
  · rw [Bool.true_or]
    rcases hasQuote_iff.mp ho with ⟨r, hr, e1, e2⟩
    refine hasQuote_iff.mpr
      ⟨applyNew new r, List.mem_append_left _ (List.mem_map.mpr ⟨r, hr, rfl⟩), ?_, ?_⟩
    · rw [applyNew_symbol]
      exact e1
    · rw [applyNew_date]
      exact e2

/-- With no new rows a row stays untouched. -/
theorem applyNew_nil (r : QuoteRow) : applyNew [] r = r := rfl

/-- Merging an empty new table changes nothing. -/
theorem updateFull_nil (old : List QuoteRow) : updateFull old [] = old := by
  unfold updateFull
  have hm : List.map (applyNew []) old = old := by
    induction old with
    | nil => rfl
    | cons a l ih => rw [List.map_cons, ih, applyNew_nil]
  rw [hm]
  simp

/-- Result of `Nivesh._get_quotes` for one DEFAULT-strategy source: the
quote table persisted by `save_quotes` (line 474), the number of adapter
fetch calls issued by the batch loop, and the returned rows (lines
475-483; the constant `source_key` output column is omitted). -/
structure SyncResult where
  persisted : List QuoteRow
  fetchCount : Nat
  view : List QuoteRow
  deriving DecidableEq, Repr

/-- Embedding of `Nivesh._get_quotes` for a DEFAULT-strategy source with
`data_group_period = None` (lines 322-483): compute the missing pairs,
issue one single-day fetch per missing row passing the whole requested
symbol list, upsert the fetched rows into the cache, sort by date, persist,
and return the slice of the merged table matching the requested symbols
and window (`is_between` is inclusive). -/
def getQuotesDefault (adapter : List String → Nat → Nat → List QuoteRow)
    (cache : List QuoteRow) (symbols : List String) (lo hi : Nat) : SyncResult :=
  let batches := defaultBatches cache symbols lo hi
  let newQuotes := batches.flatMap fun b => adapter symbols b.1 b.2
  let merged := sortByDate (updateFull cache newQuotes)
  { persisted := merged
    fetchCount := batches.length
    view := merged.filter fun r =>
      symbols.contains r.symbol && decide (lo ≤ r.date) && decide (r.date ≤ hi) }

/-- After a sync whose every batch returned a row for each requested
`(symbol, batch-day)` pair, nothing is missing any more. -/
theorem missingPairs_after_sync
    (adapter : List String → Nat → Nat → List QuoteRow)
    (cache : List QuoteRow) (symbols : List String) (lo hi : Nat)
    (H : ∀ b ∈ defaultBatches cache symbols lo hi, ∀ s ∈ symbols,
      ∃ r ∈ adapter symbols b.1 b.2, r.symbol = s ∧ r.date = b.1) :
    missingPairs (getQuotesDefault adapter cache symbols lo hi).persisted
      symbols lo hi = [] := by
  rw [List.eq_nil_iff_forall_not_mem]
  intro p hp
  have hp2 : (p.1, p.2) ∈ missingPairs
      (getQuotesDefault adapter cache symbols lo hi).persisted symbols lo hi := hp
  obtain ⟨h1, h2, hx, hnq⟩ := mem_missingPairs.mp hp2
  have hnq2 : hasQuote
      (sortByDate (updateFull cache
        ((defaultBatches cache symbols lo hi).flatMap
          fun b => adapter symbols b.1 b.2)))
      p.2 p.1 = false := hnq
  rw [hasQuote_sortByDate, hasQuote_updateFull] at hnq2
  rcases Bool.or_eq_false_iff.mp hnq2 with ⟨hco, hcn⟩
  have hmiss : (p.1, p.2) ∈ missingPairs cache symbols lo hi :=
    mem_missingPairs.mpr ⟨h1, h2, hx, hco⟩
  have hb : ((p.1, p.1) : Nat × Nat) ∈ defaultBatches cache symbols lo hi := by
    unfold defaultBatches
    exact List.mem_map.mpr ⟨(p.1, p.2), hmiss, rfl⟩
  obtain ⟨r, hr, hrs, hrd⟩ := H (p.1, p.1) hb p.2 hx
  have hmemnq : r ∈ (defaultBatches cache symbols lo hi).flatMap
      fun b => adapter symbols b.1 b.2 :=
    List.mem_flatMap.mpr ⟨(p.1, p.1), hb, hr⟩
  have ht := hasQuote_iff.mpr ⟨r, hmemnq, hrs, hrd⟩
  rw [ht] at hcn
  exact Bool.noConfusion hcn

/-- Adapter that always reports no data (an AMFI-style failed download, or
a market holiday). -/
def alwaysEmptyAdapter : List String → Nat → Nat → List QuoteRow := fun _ _ _ => []

/-- C5 counterexample.  `get_quotes` is NOT idempotent for a
DEFAULT-strategy source whose adapter returns no rows for a requested day:
nothing gets cached for the missing pair, so an identical second call
issues one fetch again instead of zero. -/
theorem c5_idempotence_cex :
    (getQuotesDefault alwaysEmptyAdapter [] ["S"] 1 1).fetchCount = 1 ∧
    (getQuotesDefault alwaysEmptyAdapter
        (getQuotesDefault alwaysEmptyAdapter [] ["S"] 1 1).persisted
        ["S"] 1 1).fetchCount = 1 := by
  decide

/-- C5 (amended): for a DEFAULT-strategy source, if every batch fetch of
the first call returns a row for each requested `(symbol, day)` pair of
that batch, then an identical second call issues zero adapter fetches,
persists the identical table, and returns the identical result; without
that coverage (e.g. an adapter returning no rows for a requested day, see
the counterexample) the still-missing pairs are re-fetched. -/
theorem c5_idempotent_amended
    (adapter : List String → Nat → Nat → List QuoteRow)
    (cache : List QuoteRow) (symbols : List String) (lo hi : Nat)
    (H : ∀ b ∈ defaultBatches cache symbols lo hi, ∀ s ∈ symbols,
      ∃ r ∈ adapter symbols b.1 b.2, r.symbol = s ∧ r.date = b.1) :
    (getQuotesDefault adapter
        (getQuotesDefault adapter cache symbols lo hi).persisted
        symbols lo hi).fetchCount = 0 ∧
    (getQuotesDefault adapter
        (getQuotesDefault adapter cache symbols lo hi).persisted
        symbols lo hi).persisted
      = (getQuotesDefault adapter cache symbols lo hi).persisted ∧
    (getQuotesDefault adapter
        (getQuotesDefault adapter cache symbols lo hi).persisted
        symbols lo hi).view
      = (getQuotesDefault adapter cache symbols lo hi).view := by
  have hb2 : defaultBatches
      (getQuotesDefault adapter cache symbols lo hi).persisted symbols lo hi
      = [] := by
    unfold defaultBatches
    rw [missingPairs_after_sync adapter cache symbols lo hi H]
    rfl
  have hpers : (getQuotesDefault adapter
      (getQuotesDefault adapter cache symbols lo hi).persisted
      symbols lo hi).persisted
      = (getQuotesDefault adapter cache symbols lo hi).persisted := by
    show sortByDate (updateFull _
      ((defaultBatches (getQuotesDefault adapter cache symbols lo hi).persisted
        symbols lo hi).flatMap fun b => adapter symbols b.1 b.2)) = _
    rw [hb2]
    rw [show (([] : List (Nat × Nat)).flatMap fun b => adapter symbols b.1 b.2)
      = [] from rfl]
    rw [updateFull_nil]
    show sortByDate (sortByDate _) = _
    exact sortByDate_idem _
  refine ⟨?_, hpers, ?_⟩
  · show (defaultBatches _ symbols lo hi).length = 0
    rw [hb2]
    rfl
  · show (getQuotesDefault adapter
        (getQuotesDefault adapter cache symbols lo hi).persisted
        symbols lo hi).persisted.filter _ = _
    rw [hpers]
    rfl

/-- Adapter returning a quote for every requested symbol on every
requested day. -/
def coveringAdapter : List String → Nat → Nat → List QuoteRow :=
  fun syms a _ => syms.map fun s => ⟨s, a, some 1000000⟩

/-- C5 witness: with a covering adapter, an empty cache, symbol `S` and
the one-day window `[1, 1]`, the second identical call fetches nothing and
reproduces the first call's table and result. -/
theorem c5_idempotent_amended_witness :
    (getQuotesDefault coveringAdapter
        (getQuotesDefault coveringAdapter [] ["S"] 1 1).persisted
        ["S"] 1 1).fetchCount = 0 ∧
    (getQuotesDefault coveringAdapter
        (getQuotesDefault coveringAdapter [] ["S"] 1 1).persisted
        ["S"] 1 1).persisted
      = (getQuotesDefault coveringAdapter [] ["S"] 1 1).persisted ∧
    (getQuotesDefault coveringAdapter
        (getQuotesDefault coveringAdapter [] ["S"] 1 1).persisted
        ["S"] 1 1).view
      = (getQuotesDefault coveringAdapter [] ["S"] 1 1).view :=
  c5_idempotent_amended coveringAdapter [] ["S"] 1 1 (by decide)
/-! Query facade: `Nivesh.get_quotes` (lines 530-608) with
`Nivesh._handle_tickers` (lines 260-320), for a deployment with one
DEFAULT-strategy source. -/

/-- A requested ticker: a plain symbol, or a `(symbol, source_key)` pair. -/
inductive TickerReq where
  | plain (symbol : String)
  | keyed (symbol : String) (source_key : String)
  deriving DecidableEq, Repr

/-- Embedding of `Nivesh._handle_tickers` against the freshly synced
catalog (the `get_tickers` call at lines 290-295, projected to its
`symbol, source_key` columns): plain symbols are looked up in the catalog
via the OR-filter `{"symbol": [...]}`; plain symbols matching no catalog
row form the warned-about unknown list and are dropped; explicitly keyed
requests pass through untouched, and all matched catalog rows are
appended.  Returns `(requested rows, unknown symbols)`. -/
def handleTickers (catalog : List (String × String)) (tickers : List TickerReq) :
    List (String × String) × List String :=
  let plain := tickers.filterMap fun t =>
    match t with
    | .plain s => some s
    | .keyed _ _ => none
  let keyed := tickers.filterMap fun t =>
    match t with
    | .plain _ => none
    | .keyed s k => some (s, k)
  let matched := catalog.filter fun c => plain.contains c.1
  let unknown := plain.filter fun s => !(matched.any fun c => c.1 == s)
  (keyed ++ matched, unknown)

/-- The range check of `get_quotes` (line 565): invalid iff both bounds
are given and `start_date > end_date`. -/
def startEndInvalid (sd ed : Option Nat) : Bool :=
  match sd, ed with
  | some a, some b => decide (b < a)
  | _, _ => false

/-- Outcome of `Nivesh.get_quotes`: the raised `ValueError` or the
returned rows, together with the quote cache after the call, the number of
adapter fetches issued, and whether the unknown-ticker warning fired. -/
structure TopResult where
  result : Except String (List QuoteRow)
  cache : List QuoteRow
  fetchCount : Nat
  warnedUnknown : Bool
  deriving Repr

/-- The per-source part of the facade (lines 583-608): sources are
selected by the source keys of the resolved requests; a source none of the
requests resolve to is not synced at all. -/
def runSource (adapter : List String → Nat → Nat → List QuoteRow)
    (cache : List QuoteRow) (requested : List (String × String))
    (sourceKey : String) (lo hi : Nat) (warned : Bool) : TopResult :=
  if (requested.filter fun p => p.2 == sourceKey).isEmpty then
    ⟨.ok [], cache, 0, warned⟩
  else
    let r := getQuotesDefault adapter cache
      ((requested.filter fun p => p.2 == sourceKey).map fun p => p.1) lo hi
    ⟨.ok r.view, r.persisted, r.fetchCount, warned⟩

/-- Embedding of `Nivesh.get_quotes` (lines 530-608) for one
DEFAULT-strategy source: the date range is validated first (line 565) — a
violation raises before any resolution, fetch or cache write; with no
tickers the request means every catalog row (lines 571-578); when the
resolved request list is empty the call warns and returns an empty table
(lines 579-581); otherwise `_get_quotes` runs for the source with the
symbols resolved to it.  Absent bounds default to
`today - data_refresh_interval` and `today` (lines 333-338). -/
def get_quotes (catalog : List (String × String)) (sourceKey : String)
    (adapter : List String → Nat → Nat → List QuoteRow)
    (cache : List QuoteRow) (today dri : Nat) (tickers : List TickerReq)
    (start_date end_date : Option Nat) : TopResult :=
  if startEndInvalid start_date end_date then
    ⟨.error "Start date must be before end date", cache, 0, false⟩
  else if tickers.isEmpty then
    runSource adapter cache catalog sourceKey (start_date.getD (today - dri))
      (end_date.getD today) false
  else if (handleTickers catalog tickers).1.isEmpty then
    ⟨.ok [], cache, 0, !(handleTickers catalog tickers).2.isEmpty⟩
  else
    runSource adapter cache (handleTickers catalog tickers).1 sourceKey
      (start_date.getD (today - dri)) (end_date.getD today)
      (!(handleTickers catalog tickers).2.isEmpty)

/-- The per-source runner never raises. -/
theorem runSource_ok (adapter : List String → Nat → Nat → List QuoteRow)
    (cache : List QuoteRow) (requested : List (String × String))
    (sourceKey : String) (lo hi : Nat) (warned : Bool) :
    ∃ rows, (runSource adapter cache requested sourceKey lo hi warned).result
      = .ok rows := by
  unfold runSource
  by_cases h : (requested.filter fun p => p.2 == sourceKey).isEmpty
  · rw [if_pos h]
    exact ⟨[], rfl⟩
  · rw [if_neg h]
    exact ⟨_, rfl⟩

/-- C7: `get_quotes` raises the invalid-range `ValueError` exactly when
both bounds are given with `start_date > end_date`, and it does so before
any fetch or cache mutation (zero fetches, cache untouched); in every
other case no such error is raised — the call returns a result. -/
theorem c7_range_validation (catalog : List (String × String))
    (sourceKey : String) (adapter : List String → Nat → Nat → List QuoteRow)
    (cache : List QuoteRow) (today dri : Nat) (tickers : List TickerReq)
    (sd ed : Option Nat) :
    (startEndInvalid sd ed = true ↔ ∃ a b, sd = some a ∧ ed = some b ∧ b < a) ∧
    (startEndInvalid sd ed = true →
      get_quotes catalog sourceKey adapter cache today dri tickers sd ed
        = ⟨.error "Start date must be before end date", cache, 0, false⟩) ∧
    (startEndInvalid sd ed = false →
      ∃ rows, (get_quotes catalog sourceKey adapter cache today dri tickers
        sd ed).result = .ok rows) := by
  refine ⟨?_, ?_, ?_⟩
  · constructor
    · intro h
      match sd, ed with
      | some a, some b =>
        refine ⟨a, b, rfl, rfl, ?_⟩
        simpa [startEndInvalid] using h
      | some a, none => simp [startEndInvalid] at h
      | none, some b => simp [startEndInvalid] at h
      | none, none => simp [startEndInvalid] at h
    · rintro ⟨a, b, rfl, rfl, hab⟩
      simpa [startEndInvalid] using hab
  · intro h
    unfold get_quotes
    rw [if_pos h]
  · intro h
    unfold get_quotes
    rw [if_neg (by rw [h]; exact Bool.false_ne_true)]
    by_cases ht : tickers.isEmpty
    · rw [if_pos ht]
      exact runSource_ok adapter cache catalog sourceKey _ _ false
    · rw [if_neg ht]
      by_cases hq : (handleTickers catalog tickers).1.isEmpty
      · rw [if_pos hq]
        exact ⟨[], rfl⟩
      · rw [if_neg hq]
        exact runSource_ok adapter cache _ sourceKey _ _ _

/-- C7 witness: the error case at `[5, 3]` (cache untouched, zero
fetches), and the no-error case at `[3, 5]`. -/
theorem c7_range_validation_witness :
    (get_quotes [] "amfi" alwaysEmptyAdapter [⟨"S", 1, some 10⟩] 10 1 []
        (some 5) (some 3)
      = ⟨.error "Start date must be before end date",
          [⟨"S", 1, some 10⟩], 0, false⟩) ∧
    ∃ rows, (get_quotes [] "amfi" alwaysEmptyAdapter [⟨"S", 1, some 10⟩] 10 1 []
        (some 3) (some 5)).result = .ok rows :=
  ⟨(c7_range_validation [] "amfi" alwaysEmptyAdapter [⟨"S", 1, some 10⟩] 10 1 []
      (some 5) (some 3)).2.1 (by decide),
    (c7_range_validation [] "amfi" alwaysEmptyAdapter [⟨"S", 1, some 10⟩] 10 1 []
      (some 3) (some 5)).2.2 (by decide)⟩

/-- C8: a plain requested symbol matching no catalog entry lands on the
warned-about unknown list and appears among the resolved requests only if
it was also requested with an explicit source key; and a nonempty request
consisting solely of unknown plain symbols returns an empty table with the
warning — no error, no fetch, no cache change. -/
theorem c8_unknown_tickers_dropped :
    (∀ (catalog : List (String × String)) (tickers : List TickerReq) (s : String),
      TickerReq.plain s ∈ tickers →
      (∀ c ∈ catalog, c.1 ≠ s) →
        s ∈ (handleTickers catalog tickers).2 ∧
        ∀ k, (s, k) ∈ (handleTickers catalog tickers).1 →
          TickerReq.keyed s k ∈ tickers) ∧
    (∀ (catalog : List (String × String)) (sourceKey : String)
        (adapter : List String → Nat → Nat → List QuoteRow)
        (cache : List QuoteRow) (today dri : Nat) (tickers : List TickerReq)
        (sd ed : Option Nat),
      tickers ≠ [] →
      (∀ t ∈ tickers, ∃ s, t = TickerReq.plain s ∧ ∀ c ∈ catalog, c.1 ≠ s) →
      startEndInvalid sd ed = false →
        get_quotes catalog sourceKey adapter cache today dri tickers sd ed
          = ⟨.ok [], cache, 0, true⟩) := by
  have hplain_mem : ∀ (tickers : List TickerReq) (s : String),
      TickerReq.plain s ∈ tickers →
      s ∈ tickers.filterMap fun t =>
        match t with
        | .plain s => some s
        | .keyed _ _ => none := by
    intro tickers s hs
    exact List.mem_filterMap.mpr ⟨TickerReq.plain s, hs, rfl⟩
  have hunknown : ∀ (catalog : List (String × String)) (tickers : List TickerReq)
      (s : String), TickerReq.plain s ∈ tickers → (∀ c ∈ catalog, c.1 ≠ s) →
      s ∈ (handleTickers catalog tickers).2 := by
    intro catalog tickers s hs hnc
    refine List.mem_filter.mpr ⟨hplain_mem tickers s hs, ?_⟩
    simp only [Bool.not_eq_eq_eq_not, Bool.not_true, List.any_eq_false]
    intro c hc
    have hcc : c ∈ catalog := (List.mem_filter.mp hc).1
    simp only [beq_iff_eq]
    exact hnc c hcc
  refine ⟨?_, ?_⟩
  · intro catalog tickers s hs hnc
    refine ⟨hunknown catalog tickers s hs hnc, ?_⟩
    intro k hk
    rcases List.mem_append.mp hk with hkey | hmat
    · rcases List.mem_filterMap.mp hkey with ⟨t, ht, hmt⟩
      match t, hmt with
      | .keyed s2 k2, hmt =>
        have hsk : s2 = s ∧ k2 = k := by
          constructor <;> [exact congrArg Prod.fst (Option.some.inj hmt);
            exact congrArg Prod.snd (Option.some.inj hmt)]
        rcases hsk with ⟨rfl, rfl⟩
        exact ht
    · exfalso
      have hcc : (s, k) ∈ catalog := (List.mem_filter.mp hmat).1
      exact hnc (s, k) hcc rfl
  · intro catalog sourceKey adapter cache today dri tickers sd ed hne hall hval
    have hkeyed : (List.filterMap (fun t =>
        match t with
        | .plain _ => none
        | .keyed s k => some (s, k)) tickers) = [] := by
      rw [List.filterMap_eq_nil_iff]
      intro x hx
      rcases hall x hx with ⟨s, rfl, _⟩
      rfl
    have hmatched : (List.filter (fun c =>
        (List.filterMap (fun t =>
          match t with
          | .plain s => some s
          | .keyed _ _ => none) tickers).contains c.1) catalog) = [] := by
      rw [List.filter_eq_nil_iff]
      intro c hc hcont
      simp only [List.contains_iff_exists_mem_beq] at hcont
      rcases hcont with ⟨s0, hs0, hbeq⟩
      rcases List.mem_filterMap.mp hs0 with ⟨t0, ht0, hmt0⟩
      rcases hall t0 ht0 with ⟨s1, rfl, hnc⟩
      have hss : s0 = s1 := (Option.some.inj hmt0).symm
      subst hss
      exact hnc c hc (by simpa using hbeq)
    have hq1 : (handleTickers catalog tickers).1 = [] := by
      show (List.filterMap _ tickers) ++ (List.filter _ catalog) = []
      rw [hkeyed, hmatched]
      rfl
    have hq2 : (handleTickers catalog tickers).2 ≠ [] := by
      obtain ⟨t, ht⟩ : ∃ x, x ∈ tickers := by
        cases tickers with
        | nil => exact absurd rfl hne
        | cons a l => exact ⟨a, List.mem_cons_self a l⟩
      rcases hall t ht with ⟨s, heq, hnc⟩
      have hsm := hunknown catalog tickers s (heq ▸ ht) hnc
      intro hnil
      rw [hnil] at hsm
      exact List.not_mem_nil s hsm
    unfold get_quotes
    rw [if_neg (by rw [hval]; exact Bool.false_ne_true)]
    rw [if_neg (by
      rw [List.isEmpty_iff]
      exact fun hc => hne hc)]
    rw [if_pos (by rw [hq1]; rfl)]
    have hw : (!(handleTickers catalog tickers).2.isEmpty) = true := by
      rcases hl : (handleTickers catalog tickers).2 with _ | ⟨a, l⟩
      · exact absurd hl hq2
      · rfl
    rw [hw]

/-- C8 witness: requesting the unknown plain symbols `X` and `Y` against a
catalog holding only `(S, amfi)` returns an empty table with the warning,
performs no fetch and leaves the cache untouched; and `X` is on the
unknown list while absent from the resolved requests. -/
theorem c8_unknown_tickers_dropped_witness :
    ("X" ∈ (handleTickers [("S", "amfi")]
        [TickerReq.plain "X", TickerReq.plain "Y"]).2 ∧
      ∀ k, ("X", k) ∈ (handleTickers [("S", "amfi")]
          [TickerReq.plain "X", TickerReq.plain "Y"]).1 →
        TickerReq.keyed "X" k ∈ [TickerReq.plain "X", TickerReq.plain "Y"]) ∧
    get_quotes [("S", "amfi")] "amfi" alwaysEmptyAdapter [⟨"S", 1, some 10⟩]
        10 1 [TickerReq.plain "X", TickerReq.plain "Y"] none none
      = ⟨.ok [], [⟨"S", 1, some 10⟩], 0, true⟩ :=
  ⟨c8_unknown_tickers_dropped.1 [("S", "amfi")]
      [TickerReq.plain "X", TickerReq.plain "Y"] "X"
      (List.mem_cons_self _ _) (by decide),
    c8_unknown_tickers_dropped.2 [("S", "amfi")] "amfi" alwaysEmptyAdapter
      [⟨"S", 1, some 10⟩] 10 1 [TickerReq.plain "X", TickerReq.plain "Y"]
      none none (by decide)
      (by
        intro t ht
        rcases List.mem_cons.mp ht with rfl | ht2
        · exact ⟨"X", rfl, by decide⟩
        · rcases List.mem_cons.mp ht2 with rfl | ht3
          · exact ⟨"Y", rfl, by decide⟩
          · exact absurd ht3 (List.not_mem_nil t))
      rfl⟩

end NiveshPy
